import Mathlib

/-!
Shallow embedding of `src/knights-tour.py` (closed knight's tour, 8×8 board):
the move generator (`is_valid_move`, `get_valid_moves`, `count_onward_moves`,
`get_sorted_moves`), the closure check (`is_closed_tour`), the randomized
Las Vegas search (`KnightsTourLasVegas`) and the exhaustive backtracking
search (`KnightsTourBacktracking`), together with theorems settling the
specification claims about them.

The Python board is a mutable 8×8 grid of move-order markers; here it is a
total function `Int × Int → Nat` threaded through the state-passing
translation, `0` meaning unvisited.  Python's recursion has no explicit
bound; the translation of the recursive `backtrack` helper takes a fuel
argument, and fuel-insensitivity above the number of unvisited cells is
proved, which is the termination statement.  Python's `random.choice` is
modelled by an arbitrary stream `Nat → Nat` of choices, reduced modulo the
candidate count; universal quantification over the stream covers every
outcome of the random choices.  Python's `list.sort(key=...)` is a stable
ascending sort by key, hence extensionally equal to `List.insertionSort`
by the same key, which is what the embedding uses (Lean's `mergeSort` is
well-founded recursion and does not reduce in the kernel).
-/

namespace KnightsTour

/-- `BOARD_SIZE = 8` (global constant of the source). -/
def BOARD_SIZE : Nat := 8

/-- A cell: `(row, col)` as integers (Python ints). -/
abbrev Pos : Type := Int × Int

/-- The 8 knight offsets, in the source's enumeration order. -/
def KNIGHT_MOVES : List (Int × Int) :=
  [(2, 1), (2, -1), (-2, 1), (-2, -1), (1, 2), (1, -2), (-1, 2), (-1, -2)]

/-- A board: move-order marker per cell, `0` = unvisited. -/
abbrev Board : Type := Pos → Nat

/-- The freshly allocated all-zero board. -/
def emptyBoard : Board := fun _ => 0

/-- `total_squares = BOARD_SIZE * BOARD_SIZE`. -/
def totalSquares : Nat := BOARD_SIZE * BOARD_SIZE

/-- `is_valid_move`: in bounds and unvisited. -/
def is_valid_move (x y : Int) (board : Board) : Bool :=
  decide (0 ≤ x) && decide (x < (BOARD_SIZE : Int)) &&
    decide (0 ≤ y) && decide (y < (BOARD_SIZE : Int)) &&
    decide (board (x, y) = 0)

/-- `get_valid_moves`: the 8 offsets applied to `(x, y)`, in enumeration
order, filtered by `is_valid_move`. -/
def get_valid_moves (x y : Int) (board : Board) : List Pos :=
  (KNIGHT_MOVES.map (fun d => (x + d.1, y + d.2))).filter
    (fun p => is_valid_move p.1 p.2 board)

/-- `count_onward_moves`: onward degree of a cell (Warnsdorff key). -/
def count_onward_moves (x y : Int) (board : Board) : Nat :=
  (get_valid_moves x y board).length

/-- The sort key order used by `get_sorted_moves`: ascending onward degree
on the given board. -/
def moveOrder (board : Board) (a c : Pos) : Prop :=
  count_onward_moves a.1 a.2 board ≤ count_onward_moves c.1 c.2 board

instance (board : Board) : DecidableRel (moveOrder board) :=
  fun a c => Nat.decLe _ _

/-- `get_sorted_moves`: valid moves, stably sorted ascending by onward
degree (`list.sort(key=...)` in the source; a stable ascending sort by
key, embedded as `insertionSort`). -/
def get_sorted_moves (x y : Int) (board : Board) : List Pos :=
  (get_valid_moves x y board).insertionSort (moveOrder board)

/-- `is_closed_tour`: some knight offset carries `current_pos` to
`start_pos`. -/
def is_closed_tour (current_pos start_pos : Pos) : Bool :=
  KNIGHT_MOVES.any (fun d =>
    decide (current_pos.1 + d.1 = start_pos.1) &&
      decide (current_pos.2 + d.2 = start_pos.2))

/-- The body of the `for next_x, next_y in sorted_moves` loop of the
recursive `backtrack` helper: mark the candidate with `move_count + 1`,
call `f` (the recursive call), propagate success, otherwise unmark and try
the next candidate. -/
def tryMovesWith (f : Int → Int → Nat → Board → Bool × Board) (move_count : Nat) :
    List Pos → Board → Bool × Board
  | [], board => (false, board)
  | p :: rest, board =>
    let board1 := Function.update board p (move_count + 1)
    let r := f p.1 p.2 (move_count + 1) board1
    if r.1 then r
    else tryMovesWith f move_count rest (Function.update r.2 p 0)

/-- The recursive `backtrack` helper of `KnightsTourBacktracking`, with an
explicit fuel argument (the Python recursion is unbounded; fuel
`totalSquares` is proved sufficient below).  Base case: all squares
visited, succeed iff the tour closes; otherwise try the Warnsdorff-sorted
candidates in order. -/
def backtrackF (start : Pos) : Nat → Int → Int → Nat → Board → Bool × Board
  | 0, _, _, _, board => (false, board)
  | fuel + 1, x, y, move_count, board =>
    if move_count = totalSquares then (is_closed_tour (x, y) start, board)
    else
      tryMovesWith (fun nx ny m b => backtrackF start fuel nx ny m b)
        move_count (get_sorted_moves x y board) board

/-- `KnightsTourBacktracking`: zero board, mark the start with `1`, run
the recursive helper from move count `1`. -/
def KnightsTourBacktracking (startingPosition : Pos) : Bool × Board :=
  let board := Function.update emptyBoard startingPosition 1
  let r := backtrackF startingPosition totalSquares
    startingPosition.1 startingPosition.2 1 board
  (r.1, r.2)

/-- The candidate of `get_valid_moves` selected by `random.choice`,
modelled as the entry of the candidate list at the index the random
stream chooses at this step (mod the candidate count): as the stream
varies this ranges over every candidate. -/
def lvChoice (randomSource : Nat → Nat) (x y : Int) (board : Board) (step : Nat) : Pos :=
  (get_valid_moves x y board).getD
    (randomSource step % (get_valid_moves x y board).length) ((0 : Int), (0 : Int))

/-- The `while move_count < total_squares` loop of `KnightsTourLasVegas`:
stop on exhaustion of valid moves, otherwise pick the candidate selected
by the random stream, mark it, continue. -/
def lasVegasLoop (randomSource : Nat → Nat) (x y : Int) (move_count : Nat)
    (board : Board) (step : Nat) : Pos × Nat × Board :=
  if _h : move_count < totalSquares then
    if _hv : get_valid_moves x y board = [] then ((x, y), move_count, board)
    else
      lasVegasLoop randomSource (lvChoice randomSource x y board step).1
        (lvChoice randomSource x y board step).2 (move_count + 1)
        (Function.update board (lvChoice randomSource x y board step)
          (move_count + 1)) (step + 1)
  else ((x, y), move_count, board)
termination_by totalSquares - move_count
decreasing_by omega

/-- `KnightsTourLasVegas`: zero board, mark the start with `1`, run the
random walk, then `success = (move_count == total_squares) and
is_closed_tour(current, start)`. -/
def KnightsTourLasVegas (randomSource : Nat → Nat) (startingPosition : Pos) :
    Bool × Board :=
  let board := Function.update emptyBoard startingPosition 1
  let r := lasVegasLoop randomSource startingPosition.1 startingPosition.2 1 board 0
  (decide (r.2.1 = totalSquares) && is_closed_tour r.1 startingPosition, r.2.2)

/-- The in-bounds cells of the board, as a finite set. -/
def boardCells : Finset Pos :=
  Finset.Icc (0 : Int) (BOARD_SIZE - 1) ×ˢ Finset.Icc (0 : Int) (BOARD_SIZE - 1)

/-- In-bounds predicate for a cell. -/
def inBounds (p : Pos) : Prop :=
  0 ≤ p.1 ∧ p.1 < (BOARD_SIZE : Int) ∧ 0 ≤ p.2 ∧ p.2 < (BOARD_SIZE : Int)

instance : DecidablePred inBounds := fun _ => instDecidableAnd

/-- `q` is one knight offset away from `p`. -/
def knightStep (p q : Pos) : Prop :=
  (q.1 - p.1, q.2 - p.2) ∈ KNIGHT_MOVES

instance : ∀ p q, Decidable (knightStep p q) := fun _ _ =>
  inferInstanceAs (Decidable (_ ∈ _))

/-- Number of unvisited in-bounds cells (the measure in which the
backtracking recursion is well-founded). -/
def zerosCount (board : Board) : Nat :=
  (boardCells.filter (fun p => board p = 0)).card

/-- Reads the in-bounds part of a board back as the 8×8 grid of lists the
Python program works with. -/
def boardList (board : Board) : List (List Nat) :=
  (List.range BOARD_SIZE).map fun (i : Nat) =>
    (List.range BOARD_SIZE).map fun (j : Nat) => board ((i : Int), (j : Int))

/-- Value bookkeeping common to both searches: on a board with `m` visited
cells the positive values are exactly `{1, …, m}`, each at a single cell. -/
def ValsInv (m : Nat) (board : Board) : Prop :=
  (∀ p ∈ boardCells, board p ≤ m) ∧
  (∀ p ∈ boardCells, ∀ q ∈ boardCells, board p ≠ 0 → board p = board q → p = q) ∧
  (∀ k ∈ Finset.Icc 1 m, ∃ p ∈ boardCells, board p = k)

/-- The backtracking search invariant at a call with current cell `cur` and
move count `m`: value bookkeeping, the current cell holds `m`, the start
holds `1`, and consecutive values sit a knight move apart (the cells of the
current recursion-stack path from `start`). -/
def SearchInv (start cur : Pos) (m : Nat) (board : Board) : Prop :=
  inBounds start ∧ cur ∈ boardCells ∧ 1 ≤ m ∧ board cur = m ∧ board start = 1 ∧
  ValsInv m board ∧
  (∀ p ∈ boardCells, ∀ q ∈ boardCells, 1 ≤ board p → board q = board p + 1 → knightStep p q)

instance (m : Nat) (board : Board) : Decidable (ValsInv m board) := by
  unfold ValsInv; infer_instance

instance (start cur : Pos) (m : Nat) (board : Board) :
    Decidable (SearchInv start cur m board) := by
  unfold SearchInv; infer_instance

/-- What the claim asserts about the returned board on success: the
positive entries are exactly the permutation `{1, …, 64}`, consecutive
values are a knight move apart, and the cell holding `64` closes the tour
back to `start`. -/
def ClosedTourBoard (start : Pos) (board : Board) : Prop :=
  (∀ p ∈ boardCells, 1 ≤ board p ∧ board p ≤ totalSquares) ∧
  (∀ k ∈ Finset.Icc 1 totalSquares, ∃ p ∈ boardCells, board p = k ∧
    ∀ q ∈ boardCells, board q = k → q = p) ∧
  (∀ p ∈ boardCells, ∀ q ∈ boardCells, board q = board p + 1 → knightStep p q) ∧
  (∀ p ∈ boardCells, board p = totalSquares → is_closed_tour p start = true)

instance (start : Pos) (board : Board) : Decidable (ClosedTourBoard start board) := by
  unfold ClosedTourBoard; infer_instance

/-- Invariant of the random walk: current cell in bounds holding `m`,
value bookkeeping, and exactly `m` marked cells. -/
def LVInv (cur : Pos) (m : Nat) (board : Board) : Prop :=
  cur ∈ boardCells ∧ 1 ≤ m ∧ board cur = m ∧ ValsInv m board ∧
  (boardCells.filter (fun p => board p ≠ 0)).card = m

/-- Onward degree as the spec words it: computed with the candidate cell
itself temporarily treated as occupied. -/
def onwardDegreeOccupied (p : Pos) (board : Board) : Nat :=
  count_onward_moves p.1 p.2 (Function.update board p 1)

/-- Cell lookup in the list-of-rows rendering of a board. -/
def lookupList (L : List (List Nat)) (p : Pos) : Nat :=
  (L.getD p.1.toNat []).getD p.2.toNat 0

/-- The closed tour the backtracking search finds from `(0,0)`. -/
def tourBoard00 : List (List Nat) :=
  [[1, 50, 15, 32, 61, 28, 13, 30],
   [16, 33, 64, 55, 14, 31, 60, 27],
   [51, 2, 49, 44, 57, 62, 29, 12],
   [34, 17, 56, 63, 54, 47, 26, 59],
   [3, 52, 45, 48, 43, 58, 11, 40],
   [18, 35, 20, 53, 46, 41, 8, 25],
   [21, 4, 37, 42, 23, 6, 39, 10],
   [36, 19, 22, 5, 38, 9, 24, 7]]

/-! ### Basic characterizations -/

theorem mem_boardCells {p : Pos} : p ∈ boardCells ↔ inBounds p := by
  obtain ⟨a, b⟩ := p
  simp only [boardCells, inBounds, Finset.mem_product, Finset.mem_Icc, BOARD_SIZE]
  omega

theorem boardCells_card : boardCells.card = totalSquares := by decide

theorem is_closed_tour_iff {p s : Pos} : is_closed_tour p s = true ↔ knightStep p s := by
  simp only [is_closed_tour, List.any_eq_true, Bool.and_eq_true, decide_eq_true_eq, knightStep]
  constructor
  · rintro ⟨d, hd, h1, h2⟩
    have hds : (s.1 - p.1, s.2 - p.2) = d := by
      obtain ⟨d1, d2⟩ := d
      simp only [Prod.mk.injEq]
      constructor <;> omega
    rwa [hds]
  · intro h
    exact ⟨(s.1 - p.1, s.2 - p.2), h, by ring, by ring⟩

theorem mem_get_valid_moves {x y : Int} {board : Board} {p : Pos} :
    p ∈ get_valid_moves x y board ↔ knightStep (x, y) p ∧ inBounds p ∧ board p = 0 := by
  simp only [get_valid_moves, is_valid_move, List.mem_filter, List.mem_map, Bool.and_eq_true,
    decide_eq_true_eq]
  constructor
  · rintro ⟨⟨d, hd, rfl⟩, ⟨⟨⟨h1, h2⟩, h3⟩, h4⟩, h5⟩
    refine ⟨?_, ⟨h1, h2, h3, h4⟩, by simpa using h5⟩
    simpa [knightStep] using hd
  · rintro ⟨hk, ⟨h1, h2, h3, h4⟩, hz⟩
    refine ⟨⟨(p.1 - x, p.2 - y), hk, ?_⟩, ⟨⟨⟨h1, h2⟩, h3⟩, h4⟩, by simpa using hz⟩
    obtain ⟨a, b⟩ := p
    simp only [Prod.mk.injEq]
    constructor <;> ring

theorem mem_get_sorted_moves {x y : Int} {board : Board} {p : Pos} :
    p ∈ get_sorted_moves x y board ↔ p ∈ get_valid_moves x y board :=
  List.mem_insertionSort (moveOrder board)

/-- Unvisited candidates: every sorted move is in-bounds and unvisited. -/
theorem get_sorted_moves_spec {x y : Int} {board : Board} {p : Pos}
    (hp : p ∈ get_sorted_moves x y board) :
    knightStep (x, y) p ∧ inBounds p ∧ board p = 0 :=
  mem_get_valid_moves.mp (mem_get_sorted_moves.mp hp)

/-! ### Counting unvisited cells -/

theorem zerosCount_pos {board : Board} {p : Pos} (hp : p ∈ boardCells)
    (hz : board p = 0) : 0 < zerosCount board :=
  Finset.card_pos.mpr ⟨p, Finset.mem_filter.mpr ⟨hp, hz⟩⟩

theorem zerosCount_update {board : Board} {p : Pos} {v : Nat}
    (hp : p ∈ boardCells) (hz : board p = 0) (hv : v ≠ 0) :
    zerosCount (Function.update board p v) + 1 = zerosCount board := by
  unfold zerosCount
  have hfil : boardCells.filter (fun q => Function.update board p v q = 0) =
      (boardCells.filter (fun q => board q = 0)).erase p := by
    ext q
    simp only [Finset.mem_filter, Finset.mem_erase, Function.update_apply]
    constructor
    · rintro ⟨hq, hval⟩
      rcases eq_or_ne q p with rfl | hne
      · simp at hval; exact absurd hval hv
      · rw [if_neg hne] at hval; exact ⟨hne, hq, hval⟩
    · rintro ⟨hne, hq, hval⟩
      exact ⟨hq, by rwa [if_neg hne]⟩
  rw [hfil, Finset.card_erase_of_mem (Finset.mem_filter.mpr ⟨hp, hz⟩)]
  have hpos : 0 < (boardCells.filter (fun q => board q = 0)).card :=
    Finset.card_pos.mpr ⟨p, Finset.mem_filter.mpr ⟨hp, hz⟩⟩
  omega

/-- Unmarking a freshly marked cell restores the board. -/
theorem update_update_cancel {board : Board} {p : Pos} {v : Nat} (hz : board p = 0) :
    Function.update (Function.update board p v) p 0 = board := by
  rw [Function.update_idem, ← hz]
  exact Function.update_eq_self p board

/-! ### Restoration on failure (backtracking undo) -/

theorem tryMovesWith_restore {f : Int → Int → Nat → Board → Bool × Board}
    (hf : ∀ nx ny m b, (f nx ny m b).1 = false → (f nx ny m b).2 = b) (m : Nat) :
    ∀ (moves : List Pos) (board : Board), (∀ p ∈ moves, board p = 0) →
      (tryMovesWith f m moves board).1 = false →
      (tryMovesWith f m moves board).2 = board := by
  intro moves
  induction moves with
  | nil => intro board _ _; rfl
  | cons p rest ih =>
    intro board hz hfail
    have hz0 : board p = 0 := hz p (List.mem_cons_self p rest)
    simp only [tryMovesWith] at hfail ⊢
    cases hr : (f p.1 p.2 (m + 1) (Function.update board p (m + 1))).1 with
    | true => rw [if_pos hr] at hfail; exact absurd hfail (by simp [hr])
    | false =>
      rw [if_neg (by simp [hr])] at hfail ⊢
      have hrb := hf p.1 p.2 (m + 1) (Function.update board p (m + 1)) hr
      rw [hrb, update_update_cancel hz0] at hfail ⊢
      exact ih board (fun q hq => hz q (List.mem_cons_of_mem _ hq)) hfail

theorem backtrackF_restore (start : Pos) :
    ∀ (fuel : Nat) (x y : Int) (m : Nat) (board : Board),
      (backtrackF start fuel x y m board).1 = false →
      (backtrackF start fuel x y m board).2 = board := by
  intro fuel
  induction fuel with
  | zero => intro x y m board _; rfl
  | succ fuel ih =>
    intro x y m board hfail
    simp only [backtrackF] at hfail ⊢
    by_cases hm : m = totalSquares
    · rw [if_pos hm] at hfail ⊢
    · rw [if_neg hm] at hfail ⊢
      exact tryMovesWith_restore (fun nx ny m' b' => ih nx ny m' b') m
        (get_sorted_moves x y board) board
        (fun p hp => (get_sorted_moves_spec hp).2.2) hfail

/-! ### Termination: the result is insensitive to fuel above the number of
unvisited cells, i.e. the recursion is well-founded in that number. -/

theorem backtrackF_fuel_bound (start : Pos) :
    ∀ (z fuel₁ fuel₂ : Nat) (x y : Int) (m : Nat) (board : Board),
      zerosCount board ≤ z → zerosCount board < fuel₁ → zerosCount board < fuel₂ →
      backtrackF start fuel₁ x y m board = backtrackF start fuel₂ x y m board := by
  intro z
  induction z with
  | zero =>
    intro fuel₁ fuel₂ x y m board hz h1 h2
    obtain ⟨g₁, rfl⟩ : ∃ g, fuel₁ = g + 1 := ⟨fuel₁ - 1, by omega⟩
    obtain ⟨g₂, rfl⟩ : ∃ g, fuel₂ = g + 1 := ⟨fuel₂ - 1, by omega⟩
    simp only [backtrackF]
    by_cases hm : m = totalSquares
    · rw [if_pos hm, if_pos hm]
    · rw [if_neg hm, if_neg hm]
      have hnil : get_sorted_moves x y board = [] := by
        apply List.eq_nil_iff_forall_not_mem.mpr
        intro p hp
        obtain ⟨_, hInB, hz0⟩ := get_sorted_moves_spec hp
        have := zerosCount_pos (mem_boardCells.mpr hInB) hz0
        omega
      rw [hnil]
      rfl
  | succ z ih =>
    intro fuel₁ fuel₂ x y m board hz h1 h2
    obtain ⟨g₁, rfl⟩ : ∃ g, fuel₁ = g + 1 := ⟨fuel₁ - 1, by omega⟩
    obtain ⟨g₂, rfl⟩ : ∃ g, fuel₂ = g + 1 := ⟨fuel₂ - 1, by omega⟩
    simp only [backtrackF]
    by_cases hm : m = totalSquares
    · rw [if_pos hm, if_pos hm]
    · rw [if_neg hm, if_neg hm]
      have inner : ∀ (moves : List Pos) (b : Board),
          (∀ p ∈ moves, p ∈ boardCells ∧ b p = 0) →
          zerosCount b ≤ z + 1 → zerosCount b ≤ g₁ → zerosCount b ≤ g₂ →
          tryMovesWith (fun nx ny m' b' => backtrackF start g₁ nx ny m' b') m moves b =
            tryMovesWith (fun nx ny m' b' => backtrackF start g₂ nx ny m' b') m moves b := by
        intro moves
        induction moves with
        | nil => intro b _ _ _ _; rfl
        | cons p rest ihm =>
          intro b hmoves hbz hbg₁ hbg₂
          obtain ⟨hp, hz0⟩ := hmoves p (List.mem_cons_self p rest)
          have hzpos : 0 < zerosCount b := zerosCount_pos hp hz0
          have hupd : zerosCount (Function.update b p (m + 1)) + 1 = zerosCount b :=
            zerosCount_update hp hz0 (Nat.succ_ne_zero m)
          have heq : backtrackF start g₁ p.1 p.2 (m + 1) (Function.update b p (m + 1)) =
              backtrackF start g₂ p.1 p.2 (m + 1) (Function.update b p (m + 1)) :=
            ih g₁ g₂ p.1 p.2 (m + 1) _ (by omega) (by omega) (by omega)
          simp only [tryMovesWith]
          rw [heq]
          rcases Bool.eq_false_or_eq_true
              (backtrackF start g₂ p.1 p.2 (m + 1) (Function.update b p (m + 1))).1 with hr | hr
          · rw [if_pos hr, if_pos hr]
          · rw [if_neg (by simp [hr]), if_neg (by simp [hr])]
            rw [backtrackF_restore start g₂ _ _ _ _ hr, update_update_cancel hz0]
            exact ihm b (fun q hq => hmoves q (List.mem_cons_of_mem _ hq)) hbz hbg₁ hbg₂
      exact inner (get_sorted_moves x y board) board
        (fun p hp => ⟨mem_boardCells.mpr (get_sorted_moves_spec hp).2.1,
          (get_sorted_moves_spec hp).2.2⟩)
        (by omega) (by omega) (by omega)

theorem backtrackF_fuel_congr (start : Pos) (fuel₁ fuel₂ : Nat) (x y : Int) (m : Nat)
    (board : Board) (h1 : zerosCount board < fuel₁) (h2 : zerosCount board < fuel₂) :
    backtrackF start fuel₁ x y m board = backtrackF start fuel₂ x y m board :=
  backtrackF_fuel_bound start (zerosCount board) fuel₁ fuel₂ x y m board le_rfl h1 h2

/-! ### The search invariant -/

theorem ValsInv_mark {m : Nat} {board : Board} {p : Pos}
    (hv : ValsInv m board) (hp : p ∈ boardCells) (hz : board p = 0) :
    ValsInv (m + 1) (Function.update board p (m + 1)) := by
  obtain ⟨hub, huniq, hsurj⟩ := hv
  refine ⟨?_, ?_, ?_⟩
  · intro q hq
    rcases eq_or_ne q p with rfl | hne
    · simp
    · rw [Function.update_apply, if_neg hne]
      exact le_trans (hub q hq) (Nat.le_succ m)
  · intro q1 hq1 q2 hq2 hnz heq
    by_cases h1 : q1 = p
    · by_cases h2 : q2 = p
      · rw [h1, h2]
      · exfalso
        rw [h1, Function.update_same, Function.update_apply, if_neg h2] at heq
        have := hub q2 hq2
        omega
    · by_cases h2 : q2 = p
      · exfalso
        rw [Function.update_apply, if_neg h1, h2, Function.update_same] at heq
        have := hub q1 hq1
        omega
      · rw [Function.update_apply, if_neg h1] at hnz heq
        rw [Function.update_apply, if_neg h2] at heq
        exact huniq q1 hq1 q2 hq2 hnz heq
  · intro k hk
    rw [Finset.mem_Icc] at hk
    by_cases hkm : k = m + 1
    · exact ⟨p, hp, by rw [Function.update_same, hkm]⟩
    · obtain ⟨q, hq, hval⟩ := hsurj k (Finset.mem_Icc.mpr ⟨hk.1, by omega⟩)
      have hqp : q ≠ p := by
        intro h
        rw [h, hz] at hval
        omega
      refine ⟨q, hq, ?_⟩
      rw [Function.update_apply, if_neg hqp]
      exact hval

theorem SearchInv_mark {start cur : Pos} {m : Nat} {board : Board} {p : Pos}
    (inv : SearchInv start cur m board) (hks : knightStep cur p) (hp : p ∈ boardCells)
    (hz : board p = 0) :
    SearchInv start p (m + 1) (Function.update board p (m + 1)) := by
  obtain ⟨hstart, hcur, hm1, hcurval, hstartval, hvals, hpath⟩ := inv
  have hub := hvals.1
  have huniq := hvals.2.1
  have hpstart : start ≠ p := by
    intro h
    rw [h, hz] at hstartval
    omega
  refine ⟨hstart, hp, by omega, Function.update_same p (m + 1) board, ?_, ValsInv_mark hvals hp hz, ?_⟩
  · rw [Function.update_apply, if_neg hpstart]
    exact hstartval
  · intro q1 hq1 q2 hq2 h1 h2
    by_cases hq2p : q2 = p
    · rw [hq2p, Function.update_same] at h2
      have hq1p : q1 ≠ p := by
        intro h
        rw [h, Function.update_same] at h2
        omega
      rw [Function.update_apply, if_neg hq1p] at h2
      have hq1cur : q1 = cur :=
        huniq q1 hq1 cur hcur (by omega) (by rw [hcurval]; omega)
      rw [hq1cur, hq2p]
      exact hks
    · by_cases hq1p : q1 = p
      · exfalso
        rw [hq1p, Function.update_same] at h2
        rw [Function.update_apply, if_neg hq2p] at h2
        have := hub q2 hq2
        omega
      · rw [Function.update_apply, if_neg hq2p] at h2
        rw [Function.update_apply, if_neg hq1p] at h1 h2
        exact hpath q1 hq1 q2 hq2 h1 h2

/-- Pigeonhole: when the values `1..64` are all placed injectively, every
in-bounds cell is visited. -/
theorem ValsInv_full {board : Board} (hv : ValsInv totalSquares board) :
    ∀ p ∈ boardCells, 1 ≤ board p := by
  obtain ⟨hub, huniq, hsurj⟩ := hv
  have hsub : boardCells.filter (fun p => board p ≠ 0) ⊆ boardCells :=
    Finset.filter_subset _ _
  have hsurjOn : Set.SurjOn board
      (boardCells.filter (fun p => board p ≠ 0) : Finset Pos)
      (Finset.Icc 1 totalSquares : Finset Nat) := by
    intro k hk
    rw [Finset.mem_coe] at hk
    have hk1 : 1 ≤ k := (Finset.mem_Icc.mp hk).1
    obtain ⟨p, hp, hval⟩ := hsurj k hk
    refine ⟨p, ?_, hval⟩
    rw [Finset.mem_coe, Finset.mem_filter]
    exact ⟨hp, by omega⟩
  have hcard := Finset.card_le_card_of_surjOn board hsurjOn
  rw [Nat.card_Icc] at hcard
  have hcells : boardCells.filter (fun p => board p ≠ 0) = boardCells := by
    apply Finset.eq_of_subset_of_card_le hsub
    rw [boardCells_card]
    omega
  intro p hp
  have : p ∈ boardCells.filter (fun p => board p ≠ 0) := by
    rw [hcells]; exact hp
  have := (Finset.mem_filter.mp this).2
  omega

theorem ClosedTourBoard_of_inv {start cur : Pos} {board : Board}
    (inv : SearchInv start cur totalSquares board)
    (hclosed : is_closed_tour cur start = true) :
    ClosedTourBoard start board := by
  obtain ⟨hstart, hcur, hm1, hcurval, hstartval, hvals, hpath⟩ := inv
  have hfull := ValsInv_full hvals
  obtain ⟨hub, huniq, hsurj⟩ := hvals
  refine ⟨fun p hp => ⟨hfull p hp, hub p hp⟩, ?_, ?_, ?_⟩
  · intro k hk
    have hk1 : 1 ≤ k := (Finset.mem_Icc.mp hk).1
    obtain ⟨p, hp, hval⟩ := hsurj k hk
    refine ⟨p, hp, hval, fun q hq hqval => ?_⟩
    exact huniq q hq p hp (by omega) (by rw [hqval, hval])
  · intro p hp q hq hsucc
    exact hpath p hp q hq (hfull p hp) hsucc
  · intro p hp hval
    have hpc : p = cur := huniq p hp cur hcur (by omega) (by rw [hval, hcurval])
    rwa [hpc]

/-! ### Soundness of the backtracking search -/

theorem backtrackF_sound (start : Pos) :
    ∀ (fuel : Nat) (x y : Int) (m : Nat) (board : Board),
      SearchInv start (x, y) m board → m ≤ totalSquares →
      (backtrackF start fuel x y m board).1 = true →
      ClosedTourBoard start (backtrackF start fuel x y m board).2 := by
  intro fuel
  induction fuel with
  | zero =>
    intro x y m board _ _ hsucc
    exact absurd hsucc (by simp [backtrackF])
  | succ fuel ih =>
    intro x y m board inv hm hsucc
    simp only [backtrackF] at hsucc ⊢
    by_cases hm64 : m = totalSquares
    · rw [if_pos hm64] at hsucc ⊢
      subst hm64
      exact ClosedTourBoard_of_inv inv hsucc
    · rw [if_neg hm64] at hsucc ⊢
      have hmlt : m < totalSquares := lt_of_le_of_ne hm hm64
      have inner : ∀ (moves : List Pos) (b : Board),
          SearchInv start (x, y) m b →
          (∀ p ∈ moves, knightStep (x, y) p ∧ p ∈ boardCells ∧ b p = 0) →
          (tryMovesWith (fun nx ny m' b' => backtrackF start fuel nx ny m' b')
            m moves b).1 = true →
          ClosedTourBoard start
            (tryMovesWith (fun nx ny m' b' => backtrackF start fuel nx ny m' b')
              m moves b).2 := by
        intro moves
        induction moves with
        | nil => intro b _ _ h; exact absurd h (by simp [tryMovesWith])
        | cons p rest ihm =>
          intro b invb hmoves hs
          obtain ⟨hks, hp, hz0⟩ := hmoves p (List.mem_cons_self p rest)
          have inv' : SearchInv start p (m + 1) (Function.update b p (m + 1)) :=
            SearchInv_mark invb hks hp hz0
          simp only [tryMovesWith] at hs ⊢
          rcases Bool.eq_false_or_eq_true
              (backtrackF start fuel p.1 p.2 (m + 1)
                (Function.update b p (m + 1))).1 with hr | hr
          · rw [if_pos hr] at hs ⊢
            exact ih p.1 p.2 (m + 1) (Function.update b p (m + 1)) inv' (by omega) hr
          · rw [if_neg (by simp [hr])] at hs ⊢
            rw [backtrackF_restore start fuel _ _ _ _ hr, update_update_cancel hz0] at hs ⊢
            exact ihm b invb (fun q hq => hmoves q (List.mem_cons_of_mem _ hq)) hs
      exact inner (get_sorted_moves x y board) board inv
        (fun p hp => ⟨(get_sorted_moves_spec hp).1,
          mem_boardCells.mpr (get_sorted_moves_spec hp).2.1,
          (get_sorted_moves_spec hp).2.2⟩) hsucc

/-- The initial board (all zero except `start ↦ 1`) satisfies the search
invariant at move count `1`. -/
theorem SearchInv_init {start : Pos} (hs : inBounds start) :
    SearchInv start start 1 (Function.update emptyBoard start 1) := by
  have hcell : start ∈ boardCells := mem_boardCells.mpr hs
  refine ⟨hs, hcell, le_rfl, Function.update_same start 1 emptyBoard,
    Function.update_same start 1 emptyBoard, ⟨?_, ?_, ?_⟩, ?_⟩
  · intro q _
    rw [Function.update_apply]
    split
    · exact le_rfl
    · exact Nat.zero_le 1
  · intro q1 hq1 q2 hq2 hnz heq
    by_cases h1 : q1 = start
    · by_cases h2 : q2 = start
      · rw [h1, h2]
      · exfalso
        rw [h1, Function.update_same, Function.update_apply, if_neg h2] at heq
        exact absurd heq.symm (by simp [emptyBoard])
    · exfalso
      rw [Function.update_apply, if_neg h1] at hnz
      exact hnz rfl
  · intro k hk
    rw [Finset.mem_Icc] at hk
    have hk1 : k = 1 := by omega
    subst hk1
    exact ⟨start, hcell, Function.update_same start 1 emptyBoard⟩
  · intro q1 hq1 q2 hq2 h1 h2
    exfalso
    have hle : Function.update emptyBoard start 1 q2 ≤ 1 := by
      rw [Function.update_apply]
      split
      · exact le_rfl
      · exact Nat.zero_le 1
    omega

/-! ### The Las Vegas walk -/

theorem card_filter_mark {m : Nat} {board : Board} {p : Pos}
    (hp : p ∈ boardCells) (hz : board p = 0)
    (hcard : (boardCells.filter (fun q => board q ≠ 0)).card = m)
    {v : Nat} (hv : v ≠ 0) :
    (boardCells.filter (fun q => Function.update board p v q ≠ 0)).card = m + 1 := by
  have hins : boardCells.filter (fun q => Function.update board p v q ≠ 0) =
      insert p (boardCells.filter (fun q => board q ≠ 0)) := by
    ext q
    simp only [Finset.mem_filter, Finset.mem_insert, Function.update_apply]
    by_cases hq : q = p
    · constructor
      · intro _; exact Or.inl hq
      · intro _; exact ⟨by rw [hq]; exact hp, by rw [if_pos hq]; exact hv⟩
    · rw [if_neg hq]
      constructor
      · rintro ⟨hqq, hnz⟩; exact Or.inr ⟨hqq, hnz⟩
      · rintro (h | ⟨hqq, hnz⟩)
        · exact absurd h hq
        · exact ⟨hqq, hnz⟩
  rw [hins, Finset.card_insert_of_not_mem (by simp [Finset.mem_filter, hz]), hcard]

theorem LVInv_mark {cur : Pos} {m : Nat} {board : Board} {p : Pos}
    (inv : LVInv cur m board) (hp : p ∈ boardCells) (hz : board p = 0) :
    LVInv p (m + 1) (Function.update board p (m + 1)) := by
  obtain ⟨hcur, hm1, hcurval, hvals, hcount⟩ := inv
  exact ⟨hp, by omega, Function.update_same p (m + 1) board,
    ValsInv_mark hvals hp hz, card_filter_mark hp hz hcount (by omega)⟩

theorem lvChoice_mem (randomSource : Nat → Nat) (x y : Int) (board : Board)
    (step : Nat) (hv : ¬get_valid_moves x y board = []) :
    lvChoice randomSource x y board step ∈ get_valid_moves x y board := by
  have hlen : randomSource step % (get_valid_moves x y board).length <
      (get_valid_moves x y board).length :=
    Nat.mod_lt _ (List.length_pos.mpr hv)
  unfold lvChoice
  rw [List.getD_eq_getElem?_getD, List.getElem?_eq_getElem hlen, Option.getD_some]
  exact List.getElem_mem hlen

/-- Clean unfolding equation for the walk loop. -/
theorem lasVegasLoop_eq (randomSource : Nat → Nat) (x y : Int) (move_count : Nat)
    (board : Board) (step : Nat) :
    lasVegasLoop randomSource x y move_count board step =
      if move_count < totalSquares then
        if get_valid_moves x y board = [] then ((x, y), move_count, board)
        else
          lasVegasLoop randomSource (lvChoice randomSource x y board step).1
            (lvChoice randomSource x y board step).2 (move_count + 1)
            (Function.update board (lvChoice randomSource x y board step)
              (move_count + 1)) (step + 1)
      else ((x, y), move_count, board) := by
  by_cases h1 : move_count < totalSquares
  · by_cases h2 : get_valid_moves x y board = []
    · rw [lasVegasLoop, dif_pos h1, dif_pos h2, if_pos h1, if_pos h2]
    · rw [lasVegasLoop, dif_pos h1, dif_neg h2, if_pos h1, if_neg h2]
  · rw [lasVegasLoop, dif_neg h1, if_neg h1]

theorem lasVegasLoop_spec (randomSource : Nat → Nat) :
    ∀ (k : Nat) (x y : Int) (m : Nat) (board : Board) (step : Nat),
      totalSquares - m ≤ k → LVInv (x, y) m board → m ≤ totalSquares →
      LVInv (lasVegasLoop randomSource x y m board step).1
          (lasVegasLoop randomSource x y m board step).2.1
          (lasVegasLoop randomSource x y m board step).2.2 ∧
        m ≤ (lasVegasLoop randomSource x y m board step).2.1 ∧
        (lasVegasLoop randomSource x y m board step).2.1 ≤ totalSquares := by
  intro k
  induction k with
  | zero =>
    intro x y m board step hk inv hm
    rw [lasVegasLoop_eq, if_neg (by omega)]
    exact ⟨inv, le_rfl, hm⟩
  | succ k ih =>
    intro x y m board step hk inv hm
    rw [lasVegasLoop_eq]
    by_cases hlt : m < totalSquares
    · rw [if_pos hlt]
      by_cases hv : get_valid_moves x y board = []
      · rw [if_pos hv]
        exact ⟨inv, le_rfl, hm⟩
      · rw [if_neg hv]
        obtain ⟨_, hInB, hz0⟩ :=
          mem_get_valid_moves.mp (lvChoice_mem randomSource x y board step hv)
        have ihres := ih _ _ (m + 1) _ (step + 1) (by omega)
          (LVInv_mark inv (mem_boardCells.mpr hInB) hz0) (by omega)
        exact ⟨ihres.1, le_trans (Nat.le_succ m) ihres.2.1, ihres.2.2⟩
    · rw [if_neg hlt]
      exact ⟨inv, le_rfl, hm⟩

/-- Once a cell is marked, the rest of the walk never changes its value. -/
theorem lasVegasLoop_mono (randomSource : Nat → Nat) :
    ∀ (k : Nat) (x y : Int) (m : Nat) (board : Board) (step : Nat) (q : Pos),
      totalSquares - m ≤ k → board q ≠ 0 →
      (lasVegasLoop randomSource x y m board step).2.2 q = board q := by
  intro k
  induction k with
  | zero =>
    intro x y m board step q hk hq
    rw [lasVegasLoop_eq, if_neg (by omega)]
  | succ k ih =>
    intro x y m board step q hk hq
    rw [lasVegasLoop_eq]
    by_cases hlt : m < totalSquares
    · rw [if_pos hlt]
      by_cases hv : get_valid_moves x y board = []
      · rw [if_pos hv]
      · rw [if_neg hv]
        obtain ⟨_, _, hz0⟩ :=
          mem_get_valid_moves.mp (lvChoice_mem randomSource x y board step hv)
        have hqp : q ≠ lvChoice randomSource x y board step := by
          intro h
          rw [h, hz0] at hq
          exact hq rfl
        rw [ih _ _ (m + 1) _ (step + 1) q (by omega)
          (by rw [Function.update_apply, if_neg hqp]; exact hq)]
        rw [Function.update_apply, if_neg hqp]
    · rw [if_neg hlt]

/-- The walk only ever marks in-bounds cells. -/
theorem lasVegasLoop_marks_inbounds (randomSource : Nat → Nat) :
    ∀ (k : Nat) (x y : Int) (m : Nat) (board : Board) (step : Nat) (q : Pos),
      totalSquares - m ≤ k →
      (lasVegasLoop randomSource x y m board step).2.2 q ≠ 0 →
      board q ≠ 0 ∨ q ∈ boardCells := by
  intro k
  induction k with
  | zero =>
    intro x y m board step q hk hq
    rw [lasVegasLoop_eq, if_neg (by omega)] at hq
    exact Or.inl hq
  | succ k ih =>
    intro x y m board step q hk hq
    rw [lasVegasLoop_eq] at hq
    by_cases hlt : m < totalSquares
    · rw [if_pos hlt] at hq
      by_cases hv : get_valid_moves x y board = []
      · rw [if_pos hv] at hq
        exact Or.inl hq
      · rw [if_neg hv] at hq
        obtain ⟨_, hInB, _⟩ :=
          mem_get_valid_moves.mp (lvChoice_mem randomSource x y board step hv)
        rcases ih _ _ (m + 1) _ (step + 1) q (by omega) hq with hnz | hcell
        · rw [Function.update_apply] at hnz
          by_cases hqp : q = lvChoice randomSource x y board step
          · exact Or.inr (by rw [hqp]; exact mem_boardCells.mpr hInB)
          · rw [if_neg hqp] at hnz
            exact Or.inl hnz
        · exact Or.inr hcell
    · rw [if_neg hlt] at hq
      exact Or.inl hq

/-- Value bookkeeping of the initial board. -/
theorem ValsInv_init {start : Pos} (hs : inBounds start) :
    ValsInv 1 (Function.update emptyBoard start 1) :=
  (SearchInv_init hs).2.2.2.2.2.1

/-- The initial board of the walk satisfies the walk invariant. -/
theorem LVInv_init {start : Pos} (hs : inBounds start) :
    LVInv start 1 (Function.update emptyBoard start 1) := by
  have hcell : start ∈ boardCells := mem_boardCells.mpr hs
  refine ⟨hcell, le_rfl, Function.update_same start 1 emptyBoard, ValsInv_init hs, ?_⟩
  have hfil : boardCells.filter (fun p => Function.update emptyBoard start 1 p ≠ 0) =
      {start} := by
    ext q
    simp only [Finset.mem_filter, Finset.mem_singleton, Function.update_apply]
    by_cases hq : q = start
    · rw [if_pos hq]
      exact ⟨fun _ => hq, fun _ => ⟨by rw [hq]; exact hcell, one_ne_zero⟩⟩
    · rw [if_neg hq]
      exact ⟨fun h => absurd rfl h.2, fun h => absurd h hq⟩
  rw [hfil, Finset.card_singleton]

/-- With `m = totalSquares` placed values, every cell is visited, and
conversely. -/
theorem LVInv_visited_iff {cur : Pos} {m : Nat} {board : Board}
    (inv : LVInv cur m board) (hm : m ≤ totalSquares) :
    ((∀ p ∈ boardCells, 1 ≤ board p) ↔ m = totalSquares) := by
  obtain ⟨hcur, hm1, hcurval, hvals, hcount⟩ := inv
  constructor
  · intro hall
    have hfil : boardCells.filter (fun p => board p ≠ 0) = boardCells := by
      apply Finset.filter_true_of_mem
      intro p hp
      have := hall p hp
      omega
    rw [hfil, boardCells_card] at hcount
    omega
  · intro h64
    subst h64
    exact ValsInv_full hvals

/-! ### The Warnsdorff ordering -/

theorem knight_moves_ne_zero : ∀ d ∈ KNIGHT_MOVES, ¬(d.1 = 0 ∧ d.2 = 0) := by decide

/-- A cell is not a knight-neighbour of itself, so occupying the candidate
does not change its onward degree: the sort key the code uses agrees with
the spec's wording. -/
theorem onwardDegreeOccupied_eq (p : Pos) (board : Board) :
    onwardDegreeOccupied p board = count_onward_moves p.1 p.2 board := by
  unfold onwardDegreeOccupied count_onward_moves get_valid_moves
  congr 1
  apply List.filter_congr
  intro q hq
  obtain ⟨d, hd, rfl⟩ := List.mem_map.mp hq
  have hne : ((p.1 + d.1, p.2 + d.2) : Pos) ≠ p := by
    intro h
    have h1 : p.1 + d.1 = p.1 := congrArg Prod.fst h
    have h2 : p.2 + d.2 = p.2 := congrArg Prod.snd h
    exact knight_moves_ne_zero d hd ⟨by omega, by omega⟩
  simp only [is_valid_move, Prod.mk.eta]
  rw [Function.update_apply, if_neg hne]

theorem get_sorted_moves_sorted (x y : Int) (board : Board) :
    (get_sorted_moves x y board).Pairwise (moveOrder board) := by
  letI : IsTotal Pos (moveOrder board) := ⟨fun a c => Nat.le_total _ _⟩
  letI : IsTrans Pos (moveOrder board) :=
    ⟨fun a c e hac hce => Nat.le_trans hac hce⟩
  exact List.sorted_insertionSort (moveOrder board) (get_valid_moves x y board)

theorem get_sorted_moves_stable {x y : Int} {board : Board} {a c : Pos}
    (hle : moveOrder board a c)
    (h : List.Sublist [a, c] (get_valid_moves x y board)) :
    List.Sublist [a, c] (get_sorted_moves x y board) :=
  List.pair_sublist_insertionSort hle h

/-! ### Reading a board back as the 8×8 grid -/

theorem boardList_lookup {board : Board} {L : List (List Nat)}
    (h : boardList board = L) {p : Pos} (hp : p ∈ boardCells) :
    board p = lookupList L p := by
  subst h
  obtain ⟨hx0, hx8, hy0, hy8⟩ := mem_boardCells.mp hp
  have hx : p.1.toNat < BOARD_SIZE := by
    unfold BOARD_SIZE
    simp only [BOARD_SIZE] at hx8
    omega
  have hy : p.2.toNat < BOARD_SIZE := by
    unfold BOARD_SIZE
    simp only [BOARD_SIZE] at hy8
    omega
  unfold lookupList boardList
  simp only [List.getD_eq_getElem?_getD]
  rw [List.getElem?_map, List.getElem?_range (by simpa using hx)]
  simp only [Option.map_some', Option.getD_some]
  rw [List.getElem?_map, List.getElem?_range (by simpa using hy)]
  simp only [Option.map_some', Option.getD_some]
  rw [Int.toNat_of_nonneg hx0, Int.toNat_of_nonneg hy0]

/-! ### Concrete evaluation of the search from (0,0) -/

set_option maxRecDepth 100000 in
set_option maxHeartbeats 12000000 in
theorem ktb00_eval :
    (fun r => (r.1, boardList r.2)) (KnightsTourBacktracking ((0 : Int), (0 : Int))) =
      (true, tourBoard00) := by decide

theorem ktb00_components :
    (KnightsTourBacktracking ((0 : Int), (0 : Int))).1 = true ∧
      boardList (KnightsTourBacktracking ((0 : Int), (0 : Int))).2 = tourBoard00 := by
  have hbeta : (fun r => (r.1, boardList r.2))
      (KnightsTourBacktracking ((0 : Int), (0 : Int))) =
      ((KnightsTourBacktracking ((0 : Int), (0 : Int))).1,
        boardList (KnightsTourBacktracking ((0 : Int), (0 : Int))).2) := rfl
  have h := ktb00_eval
  rw [hbeta, Prod.mk.injEq] at h
  exact h

theorem ktb00_flag : (KnightsTourBacktracking ((0 : Int), (0 : Int))).1 = true :=
  ktb00_components.1

theorem ktb00_board :
    boardList (KnightsTourBacktracking ((0 : Int), (0 : Int))).2 = tourBoard00 :=
  ktb00_components.2

/-! ### The claims -/

/-- C1: for every in-bounds start, if `KnightsTourBacktracking` returns
`success = true` then the positive entries of the returned board are
exactly the permutation `{1,…,64}` with no duplicates or gaps, cells with
consecutive move indices are a knight move apart, and the closure check
holds between the cell holding `64` and `start`. -/
theorem claim_C1 (start : Pos) (hs : inBounds start)
    (hsucc : (KnightsTourBacktracking start).1 = true) :
    ClosedTourBoard start (KnightsTourBacktracking start).2 :=
  backtrackF_sound start totalSquares start.1 start.2 1
    (Function.update emptyBoard start 1) (SearchInv_init hs) (by decide) hsucc

theorem claim_C1_witness :
    inBounds ((0 : Int), (0 : Int)) ∧
      ClosedTourBoard ((0 : Int), (0 : Int))
        (KnightsTourBacktracking ((0 : Int), (0 : Int))).2 :=
  ⟨by decide, claim_C1 ((0 : Int), (0 : Int)) (by decide) ktb00_flag⟩

/-- C2: on the 8×8 board, the backtracking search from `(0,0)` returns
`success = true`, the returned board (read back as an 8×8 grid) is the
explicit closed tour `tourBoard00` which contains each value `1..64`
exactly once, and the cell holding `64` — cell `(1,2)` — is one knight
offset from `(0,0)`. -/
theorem claim_C2 :
    (KnightsTourBacktracking ((0 : Int), (0 : Int))).1 = true ∧
      boardList (KnightsTourBacktracking ((0 : Int), (0 : Int))).2 = tourBoard00 ∧
      (∀ k ∈ Finset.Icc 1 totalSquares,
        (boardList (KnightsTourBacktracking ((0 : Int), (0 : Int))).2).flatten.count k = 1) ∧
      (KnightsTourBacktracking ((0 : Int), (0 : Int))).2 ((1 : Int), (2 : Int)) =
        totalSquares ∧
      knightStep ((1 : Int), (2 : Int)) ((0 : Int), (0 : Int)) := by
  refine ⟨ktb00_flag, ktb00_board, ?_, ?_, by decide⟩
  · rw [ktb00_board]
    decide
  · rw [boardList_lookup ktb00_board (by decide : ((1 : Int), (2 : Int)) ∈ boardCells)]
    decide

/-- C3: termination — the backtracking recursion's result is insensitive
to fuel above the number of unvisited cells (the recursion is well-founded
in that number), the fuel the wrapper passes lies above that bound, and
the Las Vegas loop keeps the move count between `1` and `totalSquares`
(at most 63 moves after the initial mark); both searches thus terminate
with a result. -/
theorem claim_C3 :
    (∀ (start : Pos) (fuel₁ fuel₂ : Nat) (x y : Int) (m : Nat) (board : Board),
      zerosCount board < fuel₁ → zerosCount board < fuel₂ →
      backtrackF start fuel₁ x y m board = backtrackF start fuel₂ x y m board) ∧
    (∀ start : Pos, inBounds start →
      zerosCount (Function.update emptyBoard start 1) < totalSquares) ∧
    (∀ (randomSource : Nat → Nat) (start : Pos), inBounds start →
      1 ≤ (lasVegasLoop randomSource start.1 start.2 1
          (Function.update emptyBoard start 1) 0).2.1 ∧
        (lasVegasLoop randomSource start.1 start.2 1
          (Function.update emptyBoard start 1) 0).2.1 ≤ totalSquares) := by
  refine ⟨backtrackF_fuel_congr, ?_, ?_⟩
  · intro start hs
    have hupd := zerosCount_update (mem_boardCells.mpr hs)
      (rfl : emptyBoard start = 0) (one_ne_zero) (v := 1)
    have hz : zerosCount emptyBoard = totalSquares := by decide
    omega
  · intro randomSource start hs
    have hspec := lasVegasLoop_spec randomSource (totalSquares - 1) start.1 start.2 1
      (Function.update emptyBoard start 1) 0 le_rfl (LVInv_init hs) (by decide)
    exact ⟨hspec.2.1, hspec.2.2⟩

theorem claim_C3_witness :
    zerosCount (fun _ => 1) < 1 ∧ zerosCount (fun _ => 1) < 2 ∧
      backtrackF ((0 : Int), (0 : Int)) 1 0 0 1 (fun _ => 1) =
        backtrackF ((0 : Int), (0 : Int)) 2 0 0 1 (fun _ => 1) ∧
      inBounds ((0 : Int), (0 : Int)) ∧
      zerosCount (Function.update emptyBoard ((0 : Int), (0 : Int)) 1) < totalSquares :=
  ⟨by decide, by decide,
    claim_C3.1 ((0 : Int), (0 : Int)) 1 2 0 0 1 (fun _ => 1) (by decide) (by decide),
    by decide, claim_C3.2.1 ((0 : Int), (0 : Int)) (by decide)⟩

/-- C4: failure restores the board — every failing `backtrack` call
returns the board exactly as it was on entry; in particular, if the whole
search from an in-bounds start fails, the returned board is all zeros
except the start cell, which holds `1`. -/
theorem claim_C4 :
    (∀ (start : Pos) (fuel : Nat) (x y : Int) (m : Nat) (board : Board),
      (backtrackF start fuel x y m board).1 = false →
      (backtrackF start fuel x y m board).2 = board) ∧
    (∀ start : Pos, inBounds start →
      (KnightsTourBacktracking start).1 = false →
      (KnightsTourBacktracking start).2 = Function.update emptyBoard start 1) := by
  refine ⟨backtrackF_restore, ?_⟩
  intro start _ hfail
  exact backtrackF_restore start totalSquares start.1 start.2 1
    (Function.update emptyBoard start 1) hfail

theorem claim_C4_witness :
    (backtrackF ((0 : Int), (0 : Int)) 1 0 0 1 (fun _ => 1)).1 = false ∧
      (backtrackF ((0 : Int), (0 : Int)) 1 0 0 1 (fun _ => 1)).2 = (fun _ => 1) :=
  ⟨by decide, claim_C4.1 ((0 : Int), (0 : Int)) 1 0 0 1 (fun _ => 1) (by decide)⟩

/-- C5: the invariant (positive values exactly `{1..m}`, placed along the
knight path of the current recursion stack with `start` holding `1`) is
preserved by each step of the search: marking a valid candidate extends
it to `m + 1`; a failing recursive call hands the marked board back
unchanged; and unmarking then restores the entry board — hence the entry
invariant — exactly. -/
theorem claim_C5 :
    (∀ (start cur : Pos) (m : Nat) (board : Board) (p : Pos),
      SearchInv start cur m board → knightStep cur p → p ∈ boardCells →
      board p = 0 → SearchInv start p (m + 1) (Function.update board p (m + 1))) ∧
    (∀ (start : Pos) (fuel : Nat) (m : Nat) (board' : Board) (p : Pos),
      (backtrackF start fuel p.1 p.2 (m + 1) board').1 = false →
      (backtrackF start fuel p.1 p.2 (m + 1) board').2 = board') ∧
    (∀ (start cur : Pos) (m : Nat) (board : Board) (p : Pos),
      SearchInv start cur m board → board p = 0 →
      Function.update (Function.update board p (m + 1)) p 0 = board ∧
        SearchInv start cur m
          (Function.update (Function.update board p (m + 1)) p 0)) := by
  refine ⟨fun start cur m board p inv hks hp hz => SearchInv_mark inv hks hp hz,
    fun start fuel m b' p h => backtrackF_restore start fuel p.1 p.2 (m + 1) b' h, ?_⟩
  intro start cur m board p inv hz
  refine ⟨update_update_cancel hz, ?_⟩
  rw [update_update_cancel hz]
  exact inv

set_option maxRecDepth 40000 in
theorem claim_C5_witness :
    SearchInv ((0 : Int), (0 : Int)) ((0 : Int), (0 : Int)) 1
        (Function.update emptyBoard ((0 : Int), (0 : Int)) 1) ∧
      SearchInv ((0 : Int), (0 : Int)) ((1 : Int), (2 : Int)) 2
        (Function.update (Function.update emptyBoard ((0 : Int), (0 : Int)) 1)
          ((1 : Int), (2 : Int)) 2) := by
  have h1 : SearchInv ((0 : Int), (0 : Int)) ((0 : Int), (0 : Int)) 1
      (Function.update emptyBoard ((0 : Int), (0 : Int)) 1) := by decide
  exact ⟨h1, claim_C5.1 ((0 : Int), (0 : Int)) ((0 : Int), (0 : Int)) 1
    (Function.update emptyBoard ((0 : Int), (0 : Int)) 1) ((1 : Int), (2 : Int))
    h1 (by decide) (by decide) (by decide)⟩

/-- C6: `get_sorted_moves` returns exactly the same set of cells as
`get_valid_moves`, ordered ascending by onward degree computed with the
candidate temporarily treated as occupied, and candidates of equal onward
degree keep their relative order from the enumeration order of the 8
offsets. -/
theorem claim_C6 (x y : Int) (board : Board) :
    (∀ p : Pos, p ∈ get_sorted_moves x y board ↔ p ∈ get_valid_moves x y board) ∧
      (get_sorted_moves x y board).Pairwise
        (fun a c => onwardDegreeOccupied a board ≤ onwardDegreeOccupied c board) ∧
      (∀ a c : Pos, onwardDegreeOccupied a board = onwardDegreeOccupied c board →
        List.Sublist [a, c] (get_valid_moves x y board) →
        List.Sublist [a, c] (get_sorted_moves x y board)) := by
  refine ⟨fun p => mem_get_sorted_moves, ?_, ?_⟩
  · refine List.Pairwise.imp ?_ (get_sorted_moves_sorted x y board)
    intro a c hac
    rw [onwardDegreeOccupied_eq, onwardDegreeOccupied_eq]
    exact hac
  · intro a c hdeg hsub
    refine get_sorted_moves_stable ?_ hsub
    unfold moveOrder
    rw [← onwardDegreeOccupied_eq a board, ← onwardDegreeOccupied_eq c board, hdeg]

theorem claim_C6_witness :
    onwardDegreeOccupied ((2 : Int), (1 : Int))
        (Function.update emptyBoard ((0 : Int), (0 : Int)) 1) =
      onwardDegreeOccupied ((1 : Int), (2 : Int))
        (Function.update emptyBoard ((0 : Int), (0 : Int)) 1) ∧
      List.Sublist [((2 : Int), (1 : Int)), ((1 : Int), (2 : Int))]
        (get_valid_moves 0 0 (Function.update emptyBoard ((0 : Int), (0 : Int)) 1)) ∧
      List.Sublist [((2 : Int), (1 : Int)), ((1 : Int), (2 : Int))]
        (get_sorted_moves 0 0 (Function.update emptyBoard ((0 : Int), (0 : Int)) 1)) :=
  ⟨by decide, by decide,
    (claim_C6 0 0 (Function.update emptyBoard ((0 : Int), (0 : Int)) 1)).2.2
      ((2 : Int), (1 : Int)) ((1 : Int), (2 : Int)) (by decide) (by decide)⟩

/-- C7: for every outcome of the random choices and every in-bounds
start, `KnightsTourLasVegas` returns `success = true` iff all 64 cells
are visited and the cell holding `64` (the last-visited cell) is one
knight offset from `start`; when it returns `success = false`, either
fewer than 64 cells are marked, or all 64 are marked but the closure
check fails. -/
theorem claim_C7 (randomSource : Nat → Nat) (start : Pos) (hs : inBounds start) :
    ((KnightsTourLasVegas randomSource start).1 = true ↔
      (∀ p ∈ boardCells, 1 ≤ (KnightsTourLasVegas randomSource start).2 p) ∧
        ∃ p ∈ boardCells,
          (KnightsTourLasVegas randomSource start).2 p = totalSquares ∧
            is_closed_tour p start = true) ∧
    ((KnightsTourLasVegas randomSource start).1 = false →
      (boardCells.filter
        (fun p => (KnightsTourLasVegas randomSource start).2 p ≠ 0)).card <
          totalSquares ∨
        ((boardCells.filter
          (fun p => (KnightsTourLasVegas randomSource start).2 p ≠ 0)).card =
            totalSquares ∧
          ¬∃ p ∈ boardCells,
            (KnightsTourLasVegas randomSource start).2 p = totalSquares ∧
              is_closed_tour p start = true)) := by
  have hspec := lasVegasLoop_spec randomSource (totalSquares - 1) start.1 start.2 1
    (Function.update emptyBoard start 1) 0 le_rfl (LVInv_init hs) (by decide)
  simp only [KnightsTourLasVegas]
  set res := lasVegasLoop randomSource start.1 start.2 1
    (Function.update emptyBoard start 1) 0 with hres
  obtain ⟨inv', hmle, hle'⟩ := hspec
  have hcur := inv'.1
  have hcurval := inv'.2.2.1
  have huniq := inv'.2.2.2.1.2.1
  have hcount := inv'.2.2.2.2
  have hvisited := LVInv_visited_iff inv' hle'
  have hTS : totalSquares ≠ 0 := by decide
  constructor
  · simp only [Bool.and_eq_true, decide_eq_true_eq]
    constructor
    · rintro ⟨h64, hclosed⟩
      exact ⟨hvisited.mpr h64, res.1, hcur, by rw [hcurval, h64], hclosed⟩
    · rintro ⟨hall, p, hp, hval, hclosed⟩
      have h64 : res.2.1 = totalSquares := hvisited.mp hall
      refine ⟨h64, ?_⟩
      have hpres : p = res.1 := huniq p hp res.1 hcur
        (by rw [hval]; exact hTS) (by rw [hval, hcurval, h64])
      rw [← hpres]
      exact hclosed
  · intro hfail
    by_cases h64 : res.2.1 = totalSquares
    · right
      refine ⟨by rw [hcount, h64], ?_⟩
      rintro ⟨p, hp, hval, hclosed⟩
      have hpres : p = res.1 := huniq p hp res.1 hcur
        (by rw [hval]; exact hTS) (by rw [hval, hcurval, h64])
      rw [hpres] at hclosed
      rw [hclosed, h64] at hfail
      simp at hfail
    · left
      rw [hcount]
      omega

theorem claim_C7_witness :
    inBounds ((0 : Int), (0 : Int)) ∧
      ((KnightsTourLasVegas (fun _ => 0) ((0 : Int), (0 : Int))).1 = true ↔
        (∀ p ∈ boardCells,
          1 ≤ (KnightsTourLasVegas (fun _ => 0) ((0 : Int), (0 : Int))).2 p) ∧
          ∃ p ∈ boardCells,
            (KnightsTourLasVegas (fun _ => 0) ((0 : Int), (0 : Int))).2 p =
              totalSquares ∧
              is_closed_tour p ((0 : Int), (0 : Int)) = true) :=
  ⟨by decide, (claim_C7 (fun _ => 0) ((0 : Int), (0 : Int)) (by decide)).1⟩

/-- C8: the random walk never marks a cell twice — from any state of the
loop, a cell with a positive value keeps that value to the end of the run
— it never marks an out-of-bounds cell, and hence never marks more than
64 cells in total. -/
theorem claim_C8 (randomSource : Nat → Nat) :
    (∀ (x y : Int) (m : Nat) (board : Board) (step : Nat) (q : Pos),
      board q ≠ 0 →
      (lasVegasLoop randomSource x y m board step).2.2 q = board q) ∧
    (∀ start q : Pos, (KnightsTourLasVegas randomSource start).2 q ≠ 0 →
      Function.update emptyBoard start 1 q ≠ 0 ∨ q ∈ boardCells) ∧
    (∀ start : Pos,
      (boardCells.filter
        (fun p => (KnightsTourLasVegas randomSource start).2 p ≠ 0)).card ≤
          totalSquares) := by
  refine ⟨?_, ?_, ?_⟩
  · intro x y m board step q hq
    exact lasVegasLoop_mono randomSource (totalSquares - m) x y m board step q le_rfl hq
  · intro start q hq
    exact lasVegasLoop_marks_inbounds randomSource (totalSquares - 1) start.1 start.2 1
      (Function.update emptyBoard start 1) 0 q le_rfl hq
  · intro start
    calc (boardCells.filter
          (fun p => (KnightsTourLasVegas randomSource start).2 p ≠ 0)).card ≤
        boardCells.card := Finset.card_filter_le _ _
      _ = totalSquares := boardCells_card

theorem claim_C8_witness :
    Function.update emptyBoard ((0 : Int), (0 : Int)) 1 ((0 : Int), (0 : Int)) ≠ 0 ∧
      (lasVegasLoop (fun _ => 0) 0 0 1
          (Function.update emptyBoard ((0 : Int), (0 : Int)) 1) 0).2.2
          ((0 : Int), (0 : Int)) =
        Function.update emptyBoard ((0 : Int), (0 : Int)) 1 ((0 : Int), (0 : Int)) :=
  ⟨by decide, (claim_C8 (fun _ => 0)).1 0 0 1
    (Function.update emptyBoard ((0 : Int), (0 : Int)) 1) 0 ((0 : Int), (0 : Int))
    (by decide)⟩

/-- C9: determinism — any two calls of `KnightsTourBacktracking` with the
same start return identical results, the same success flag and a
cell-for-cell identical board: the embedding is a pure function of the
start alone, mirroring that the source search uses no randomness. -/
theorem claim_C9 (start : Pos) (r₁ r₂ : Bool × Board)
    (h₁ : r₁ = KnightsTourBacktracking start)
    (h₂ : r₂ = KnightsTourBacktracking start) :
    r₁.1 = r₂.1 ∧ ∀ p : Pos, r₁.2 p = r₂.2 p := by
  subst h₁
  subst h₂
  exact ⟨rfl, fun p => rfl⟩

theorem claim_C9_witness :
    KnightsTourBacktracking ((0 : Int), (0 : Int)) =
        KnightsTourBacktracking ((0 : Int), (0 : Int)) ∧
      (KnightsTourBacktracking ((0 : Int), (0 : Int))).1 =
        (KnightsTourBacktracking ((0 : Int), (0 : Int))).1 ∧
      ∀ p : Pos, (KnightsTourBacktracking ((0 : Int), (0 : Int))).2 p =
        (KnightsTourBacktracking ((0 : Int), (0 : Int))).2 p := by
  have h := claim_C9 ((0 : Int), (0 : Int))
    (KnightsTourBacktracking ((0 : Int), (0 : Int)))
    (KnightsTourBacktracking ((0 : Int), (0 : Int))) rfl rfl
  exact ⟨rfl, h.1, h.2⟩

/-- C10: `is_closed_tour` is irreflexive — no knight offset is `(0, 0)`,
so a degenerate tour whose final cell equals the start cell is always
reported as not closed. -/
theorem claim_C10 (p : Pos) : is_closed_tour p p = false := by
  rcases Bool.eq_false_or_eq_true (is_closed_tour p p) with h | h
  · exfalso
    have hk := is_closed_tour_iff.mp h
    unfold knightStep at hk
    rw [sub_self, sub_self] at hk
    exact absurd hk (by decide)
  · exact h

end KnightsTour
